import Mathlib

/-!
Shallow embedding of the algorithmic core of the notebook
`notebooks/redshift_crosscorr/redshift_with_crosscorr.ipynb`.

The notebook's substantive arithmetic is:
* construction of the observed spectrum table, its uniform wavelength
  grid `wave = np.arange(L)*CD1_1 + CRVAL1`, and filtering of
  zero/negative-weight samples (`dataspec_sub = dataspec[dataspec['weight']>0.]`);
* design of a windowed-sinc low-pass kernel
  (`N = int(np.ceil(4/b)); if not N % 2: N += 1`,
  `filt = np.sinc(2*fc*(n-(N-1)/2))`, Blackman window, `filt /= np.sum(filt)`);
* application of the kernel by `np.convolve(flux, filt, mode='same')`,
  keeping wavelength and uncertainty unchanged;
* coarse peak location `index_peak = np.where(corr == np.amax(corr))[0][0]`;
* sub-pixel refinement: `p = np.polyfit(lag[i-8:i+9], corr[i-8:i+9], 2)`,
  `roots = np.roots(p)`, `v_fit = np.mean(roots)`.

Machine floats are embedded as exact rationals where the computation is
rational, and as reals (or complex numbers, for the root computation)
where it involves sin/cos/sqrt.
-/

namespace RedshiftXCorr

/-! ## Definitions -/

/-- Embedding of the kernel-length computation of cell 17 / cell 41:
ceiling of `4 / b`, incremented by one when even. -/
def kernelLength (b : ℚ) : ℤ :=
  let N : ℤ := ⌈4 / b⌉
  if N % 2 = 0 then N + 1 else N

/-- The kernel length as a natural number (Python ints are unbounded;
the value is positive for every valid `b`). -/
def kernelLengthN (b : ℚ) : ℕ :=
  (kernelLength b).toNat

/-- Embedding of `np.amax` on a list: the maximum element (0 on the
empty list, which numpy rejects at runtime). -/
def amax (corr : List ℚ) : ℚ :=
  match corr with
  | [] => 0
  | x :: xs => xs.foldl max x

/-- Embedding of `np.where(corr == np.amax(corr))[0][0]` (cell 22):
index of the first element equal to the global maximum. -/
def index_peak (corr : List ℚ) : ℕ :=
  corr.findIdx (fun x => x = amax corr)

/-- Resolution of one Python slice endpoint against a sequence of length
`L`: negative indices wrap by adding `L` and clamp at 0; non-negative
indices clamp at `L`. -/
def pySliceIdx (L : ℕ) (x : ℤ) : ℕ :=
  if x < 0 then (max (x + L) 0).toNat else min x.toNat L

/-- Embedding of the Python slice `l[s:e]` (step 1). -/
def pySlice {α : Type _} (l : List α) (s e : ℤ) : List α :=
  (l.drop (pySliceIdx l.length s)).take (pySliceIdx l.length e - pySliceIdx l.length s)

/-- The refinement window `lag[index_peak-8 : index_peak+9]` taken by
cell 24 / cell 44 around the coarse peak index. -/
def peakWindow {α : Type _} (l : List α) (i : ℕ) : List α :=
  pySlice l ((i : ℤ) - 8) ((i : ℤ) + 9)

/-- A spectrum value: index-aligned wavelength, flux and uncertainty
sequences (mirroring `Spectrum1D`). -/
structure Spectrum (α : Type _) where
  wavelength : List α
  flux : List α
  uncertainty : List α

/-- Embedding of `np.convolve(a, v, mode='full')`: entry `k` is
`Σ_j a[j] * v[k-j]` over the indices where both factors exist. -/
def convFull {α : Type _} [CommRing α] (a v : List α) : List α :=
  (List.range (a.length + v.length - 1)).map fun k =>
    ((List.range a.length).map fun j =>
      if j ≤ k then a.getD j 0 * v.getD (k - j) 0 else 0).sum

/-- Embedding of `np.convolve(a, v, mode='same')`: the centered
`max(len(a), len(v))` entries of the full convolution. -/
def convSame {α : Type _} [CommRing α] (a v : List α) : List α :=
  ((convFull a v).drop ((min a.length v.length - 1) / 2)).take (max a.length v.length)

/-- Embedding of the smoothing step of cell 17: the flux is convolved
with the kernel in `same` mode, wavelength and uncertainty are passed
through to the new `Spectrum1D` unchanged. -/
def applyFilter {α : Type _} [CommRing α] (s : Spectrum α) (k : List α) : Spectrum α :=
  ⟨s.wavelength, convSame s.flux k, s.uncertainty⟩

/-- Embedding of `obs - continuum_model(obs.wavelength)` (cell 13): the
continuum curve is evaluated on the wavelength axis and subtracted from
the flux; wavelength and uncertainty are unchanged. -/
def subtractContinuum (s : Spectrum ℚ) (cont : ℚ → ℚ) : Spectrum ℚ :=
  ⟨s.wavelength, List.zipWith (fun f w => f - cont w) s.flux s.wavelength, s.uncertainty⟩

/-- Embedding of the observed wavelength grid of cell 7:
`wave = np.arange(L)*CD1_1 + CRVAL1`. -/
def waveGrid (L : ℕ) (cd crval : ℚ) : List ℚ :=
  (List.range L).map fun (i : ℕ) => (i : ℚ) * cd + crval

/-- The rows of the `QTable` of cell 7: index-aligned
(wavelength, flux, weight, uncertainty) samples. -/
def dataspecRows (wave flux wht unc : List ℚ) : List (ℚ × ℚ × ℚ × ℚ) :=
  wave.zip (flux.zip (wht.zip unc))

/-- The weight of a table row. -/
def rowWeight (r : ℚ × ℚ × ℚ × ℚ) : ℚ := r.2.2.1

/-- Embedding of `dataspec_sub = dataspec[dataspec['weight']>0.]`
(cell 7): only rows with strictly positive weight are kept. -/
def dataspecSub (wave flux wht unc : List ℚ) : List (ℚ × ℚ × ℚ × ℚ) :=
  (dataspecRows wave flux wht unc).filter fun r => 0 < rowWeight r

/-- Embedding of the `Spectrum1D` construction of cell 8 from the
filtered table. -/
def mkObs (wave flux wht unc : List ℚ) : Spectrum ℚ :=
  ⟨(dataspecSub wave flux wht unc).map fun r => r.1,
   (dataspecSub wave flux wht unc).map fun r => r.2.1,
   (dataspecSub wave flux wht unc).map fun r => r.2.2.2⟩

/-- The data-model invariant of a spectrum: the three sequences have
equal length and the wavelength axis is strictly ascending (hence free
of duplicates). -/
def SpectrumWF (s : Spectrum ℚ) : Prop :=
  s.wavelength.length = s.flux.length ∧
  s.uncertainty.length = s.flux.length ∧
  s.wavelength.Pairwise (· < ·)

/-- Embedding of `np.sinc` (normalized convention):
`sinc x = sin(π x)/(π x)` with `sinc 0 = 1`. -/
noncomputable def sinc (x : ℝ) : ℝ :=
  if x = 0 then 1 else Real.sin (Real.pi * x) / (Real.pi * x)

/-- The Blackman window of cell 17:
`w[i] = 0.42 - 0.5*cos(2πi/(N-1)) + 0.08*cos(4πi/(N-1))`. -/
noncomputable def blackman (N : ℕ) (i : ℕ) : ℝ :=
  0.42 - 0.5 * Real.cos (2 * Real.pi * i / ((N : ℝ) - 1)) +
    0.08 * Real.cos (4 * Real.pi * i / ((N : ℝ) - 1))

/-- The un-normalized windowed-sinc taps of cell 17:
`np.sinc(2*fc*(n-(N-1)/2))` times the Blackman window. -/
noncomputable def rawFilt (fc : ℝ) (N : ℕ) : List ℝ :=
  (List.range N).map fun (i : ℕ) =>
    sinc (2 * fc * ((i : ℝ) - ((N : ℝ) - 1) / 2)) * blackman N i

/-- The designed low-pass kernel: windowed-sinc taps normalized by their
sum (`filt /= np.sum(filt)`). -/
noncomputable def designLowpass (fc : ℝ) (b : ℚ) : List ℝ :=
  (rawFilt fc (kernelLengthN b)).map fun t => t / (rawFilt fc (kernelLengthN b)).sum

/-- Power sum `Σ x^k` over a list of abscissae. -/
noncomputable def powSum (xs : List ℝ) (k : ℕ) : ℝ :=
  (xs.map fun x => x ^ k).sum

/-- Mixed moment `Σ x^k y` over paired abscissae/ordinates. -/
noncomputable def mixSum (xs ys : List ℝ) (k : ℕ) : ℝ :=
  ((xs.zip ys).map fun p => p.1 ^ k * p.2).sum

/-- Determinant of a 3×3 matrix given row-major. -/
noncomputable def det3 (a11 a12 a13 a21 a22 a23 a31 a32 a33 : ℝ) : ℝ :=
  a11 * (a22 * a33 - a23 * a32) - a12 * (a21 * a33 - a23 * a31) +
    a13 * (a21 * a32 - a22 * a31)

/-- Embedding of `np.polyfit(xs, ys, deg=2)`: the least-squares quadratic
`a x² + b x + c` through the data, computed by Cramer's rule on the
normal equations (the unique minimizer whenever the system is
non-singular, which is what `np.polyfit` returns there). -/
noncomputable def polyfit2 (xs ys : List ℝ) : ℝ × ℝ × ℝ :=
  let S0 := powSum xs 0
  let S1 := powSum xs 1
  let S2 := powSum xs 2
  let S3 := powSum xs 3
  let S4 := powSum xs 4
  let T0 := mixSum xs ys 0
  let T1 := mixSum xs ys 1
  let T2 := mixSum xs ys 2
  let D := det3 S4 S3 S2 S3 S2 S1 S2 S1 S0
  (det3 T2 S3 S2 T1 S2 S1 T0 S1 S0 / D,
   det3 S4 T2 S2 S3 T1 S1 S2 T0 S0 / D,
   det3 S4 S3 T2 S3 S2 T1 S2 S1 T0 / D)

/-- The square root used by the quadratic formula, valued in ℂ so that a
negative discriminant yields the complex-conjugate roots that `np.roots`
returns for a real quadratic. -/
noncomputable def sqrtDisc (d : ℝ) : ℂ :=
  if 0 ≤ d then ((Real.sqrt d : ℝ) : ℂ) else Complex.I * ((Real.sqrt (-d) : ℝ) : ℂ)

/-- Embedding of `np.roots([a, b, c])` for a real quadratic: the two
(possibly complex) roots `(-b ± √(b²-4ac)) / (2a)`. -/
noncomputable def quadRoots (a b c : ℝ) : ℂ × ℂ :=
  ((-(b : ℂ) + sqrtDisc (b ^ 2 - 4 * a * c)) / (2 * a),
   (-(b : ℂ) - sqrtDisc (b ^ 2 - 4 * a * c)) / (2 * a))

/-- Embedding of `v_fit = np.mean(roots)` (cell 24): the arithmetic mean
of the two roots of the fitted quadratic. -/
noncomputable def meanRoots (a b c : ℝ) : ℂ :=
  ((quadRoots a b c).1 + (quadRoots a b c).2) / 2

/-- The refined peak velocity of cell 24: fit a quadratic to the window
by least squares, take the mean of its roots. -/
noncomputable def refineVfit (lags vals : List ℝ) : ℂ :=
  meanRoots (polyfit2 lags vals).1 (polyfit2 lags vals).2.1 (polyfit2 lags vals).2.2

/-- The integer lag offsets of the 17-sample refinement window
(coarse peak at offset 0), as used with `n = 8` in cell 24. -/
noncomputable def windowLags : List ℝ :=
  [-8, -7, -6, -5, -4, -3, -2, -1, 0, 1, 2, 3, 4, 5, 6, 7, 8]

/-! ## Theorems -/

/-- Folding `max` over a list only grows the accumulator. -/
lemma init_le_foldl_max (xs : List ℚ) (a : ℚ) : a ≤ xs.foldl max a := by
  induction xs generalizing a with
  | nil => exact le_refl a
  | cons y ys ih => exact le_trans (le_max_left a y) (ih (max a y))

/-- Every member of the list is bounded by the `max` fold. -/
lemma mem_le_foldl_max (xs : List ℚ) (a : ℚ) (y : ℚ) (hy : y ∈ xs) :
    y ≤ xs.foldl max a := by
  induction xs generalizing a with
  | nil => cases hy
  | cons z zs ih =>
    rcases List.mem_cons.mp hy with h | h
    · subst h
      exact le_trans (le_max_right a y) (init_le_foldl_max zs (max a y))
    · exact ih (max a z) h

/-- The `max` fold returns its initial value or a member of the list. -/
lemma foldl_max_mem (xs : List ℚ) (a : ℚ) :
    xs.foldl max a = a ∨ xs.foldl max a ∈ xs := by
  induction xs generalizing a with
  | nil => exact Or.inl rfl
  | cons z zs ih =>
    rcases ih (max a z) with h | h
    · rcases max_choice a z with hm | hm
      · exact Or.inl (by rw [List.foldl_cons, h, hm])
      · exact Or.inr (by rw [List.foldl_cons, h, hm]; exact List.mem_cons_self z zs)
    · exact Or.inr (List.mem_cons_of_mem z h)

/-- `amax` bounds every element of the list. -/
lemma le_amax (corr : List ℚ) (y : ℚ) (hy : y ∈ corr) : y ≤ amax corr := by
  match corr with
  | [] => cases hy
  | x :: xs =>
    rcases List.mem_cons.mp hy with h | h
    · subst h; exact init_le_foldl_max xs y
    · exact mem_le_foldl_max xs x y h

/-- `amax` of a non-empty list is attained by some element. -/
lemma amax_mem (corr : List ℚ) (h : corr ≠ []) : amax corr ∈ corr := by
  match corr with
  | [] => exact absurd rfl h
  | x :: xs =>
    show xs.foldl max x ∈ x :: xs
    rcases foldl_max_mem xs x with hm | hm
    · rw [hm]; exact List.mem_cons_self x xs
    · exact List.mem_cons_of_mem x hm

/-- `getD` at an in-range index is the indexed element. -/
lemma getD_eq_getElem (l : List ℚ) (j : ℕ) (h : j < l.length) : l.getD j 0 = l[j] := by
  simp [List.getD_eq_getElem?_getD, List.getElem?_eq_getElem h]

/-- Claim C5: for every non-empty correlation array, `index_peak` is an
in-range index at which the correlation attains its global maximum
(`amax`), every element is bounded by the value there, and any other
index attaining the maximum is at least `index_peak` (first occurrence
in ascending-lag order). -/
theorem coarse_peak_first_global_max (corr : List ℚ) (h : corr ≠ []) :
    index_peak corr < corr.length ∧
    corr.getD (index_peak corr) 0 = amax corr ∧
    (∀ j, j < corr.length → corr.getD j 0 ≤ corr.getD (index_peak corr) 0) ∧
    (∀ j, j < corr.length → corr.getD j 0 = amax corr → index_peak corr ≤ j) := by
  have hex : ∃ x ∈ corr, (fun x => decide (x = amax corr)) x = true :=
    ⟨amax corr, amax_mem corr h, by simp⟩
  have hlt : corr.findIdx (fun x => decide (x = amax corr)) < corr.length :=
    List.findIdx_lt_length_of_exists hex
  have hlt' : index_peak corr < corr.length := hlt
  have hval : corr.getD (index_peak corr) 0 = amax corr := by
    rw [getD_eq_getElem corr _ hlt']
    exact of_decide_eq_true (@List.findIdx_getElem ℚ _ corr hlt)
  refine ⟨hlt', hval, ?_, ?_⟩
  · intro j hj
    rw [hval, getD_eq_getElem corr j hj]
    exact le_amax corr _ (List.getElem_mem hj)
  · intro j hj hjmax
    by_contra hcon
    have hjlt : j < index_peak corr := by omega
    have hfalse := @List.not_of_lt_findIdx ℚ (fun x => decide (x = amax corr)) corr j hjlt
    rw [decide_eq_false_iff_not] at hfalse
    rw [getD_eq_getElem corr j hj] at hjmax
    exact hfalse hjmax

/-- Concrete instance of `coarse_peak_first_global_max` on the array
`[1, 3, 3, 2]`: the peak index is in range, attains the maximum 3,
and is the first of the two tied indices. -/
theorem coarse_peak_first_global_max_witness :
    ([1, 3, 3, 2] : List ℚ) ≠ [] ∧
    (index_peak [1, 3, 3, 2] < ([1, 3, 3, 2] : List ℚ).length ∧
     ([1, 3, 3, 2] : List ℚ).getD (index_peak [1, 3, 3, 2]) 0 = amax [1, 3, 3, 2] ∧
     (∀ j, j < ([1, 3, 3, 2] : List ℚ).length →
       ([1, 3, 3, 2] : List ℚ).getD j 0 ≤
         ([1, 3, 3, 2] : List ℚ).getD (index_peak [1, 3, 3, 2]) 0) ∧
     (∀ j, j < ([1, 3, 3, 2] : List ℚ).length →
       ([1, 3, 3, 2] : List ℚ).getD j 0 = amax [1, 3, 3, 2] →
         index_peak [1, 3, 3, 2] ≤ j)) :=
  ⟨by decide, coarse_peak_first_global_max [1, 3, 3, 2] (by decide)⟩

/-- For `0 < b < 1/2` the kernel length is odd and at least 3
(indeed at least 9). -/
lemma kernelLength_odd_ge (b : ℚ) (h0 : 0 < b) (h2 : b < 1 / 2) :
    kernelLength b % 2 = 1 ∧ 3 ≤ kernelLength b := by
  have hceil : (8 : ℤ) < ⌈4 / b⌉ := by
    rw [Int.lt_ceil]
    have h8 : (8 : ℚ) * b < 4 := by nlinarith
    push_cast
    rw [lt_div_iff₀ h0]
    linarith
  unfold kernelLength
  by_cases hpar : (⌈4 / b⌉ : ℤ) % 2 = 0
  · simp only [hpar, if_true]
    omega
  · simp only [hpar, if_false]
    omega

/-- Claim C4: for every transition fraction `b` in the open interval
`(0, 1/2)`, the kernel length `N = ⌈4 / b⌉`, incremented when even, is an
odd integer that is at least 3. -/
theorem kernel_length_odd_ge_three (b : ℚ) (h0 : 0 < b) (h2 : b < 1 / 2) :
    kernelLength b % 2 = 1 ∧ 3 ≤ kernelLength b :=
  kernelLength_odd_ge b h0 h2

/-- Concrete instance of `kernel_length_odd_ge_three` at the notebook's
operating point `b = 0.49`. -/
theorem kernel_length_odd_ge_three_witness :
    (0 : ℚ) < 49 / 100 ∧ (49 : ℚ) / 100 < 1 / 2 ∧
    (kernelLength (49 / 100) % 2 = 1 ∧ 3 ≤ kernelLength (49 / 100)) :=
  ⟨by norm_num, by norm_num, kernel_length_odd_ge_three (49 / 100) (by norm_num) (by norm_num)⟩

/-- At the operating point `b = 0.49` the ceiling is 9. -/
lemma ceil_at_op : (⌈(4 : ℚ) / (49 / 100)⌉ : ℤ) = 9 := by
  rw [Int.ceil_eq_iff]
  norm_num

/-- At the operating point `b = 0.49` the kernel length is 9. -/
lemma kernelLength_at_op : kernelLength (49 / 100) = 9 := by
  unfold kernelLength
  rw [ceil_at_op]
  norm_num

/-- Claim C10: at the notebook's fixed operating point `b = 0.49` (used in
both pipeline runs), `⌈4 / b⌉ = 9`, which is already odd, so the
even-forcing branch is not taken and the kernel length is exactly 9. -/
theorem kernel_length_at_operating_point :
    (⌈(4 : ℚ) / (49 / 100)⌉ : ℤ) = 9 ∧ (⌈(4 : ℚ) / (49 / 100)⌉ : ℤ) % 2 ≠ 0 ∧
    kernelLength (49 / 100) = 9 :=
  ⟨ceil_at_op, by rw [ceil_at_op]; decide, kernelLength_at_op⟩

/-- A resolved slice endpoint never exceeds the length. -/
lemma pySliceIdx_le (L : ℕ) (x : ℤ) : pySliceIdx L x ≤ L := by
  unfold pySliceIdx
  split <;> omega

/-- The length of a Python slice is the difference of its resolved
endpoints. -/
lemma pySlice_length {α : Type _} (l : List α) (s e : ℤ) :
    (pySlice l s e).length = pySliceIdx l.length e - pySliceIdx l.length s := by
  have he := pySliceIdx_le l.length e
  simp only [pySlice, List.length_take, List.length_drop]
  omega

/-- Claim C9: peak refinement performs no boundary guard.  For a coarse
peak index `i < 8` the window slice wraps around (its start resolves to
`L - (8 - i)`), so it holds fewer than 17 samples, and it is empty
whenever `L - (8 - i) ≥ i + 9`; for `i > L - 9` the window is silently
truncated to `L + 8 - i` samples.  The embedded window is a total
function: no `PeakAtBoundaryError` is signalled on any input. -/
theorem refine_window_no_boundary_guard {α : Type _} (l : List α) (i : ℕ) :
    (i < 8 → (peakWindow l i).length < 17) ∧
    (i < 8 → 8 - i ≤ l.length → i + 9 ≤ l.length - (8 - i) → peakWindow l i = []) ∧
    (8 ≤ i → i < l.length → l.length < i + 9 →
      (peakWindow l i).length = l.length + 8 - i) := by
  refine ⟨?_, ?_, ?_⟩
  · intro h8
    rw [peakWindow, pySlice_length]
    simp only [pySliceIdx]
    have hc1 : (i : ℤ) - 8 < 0 := by omega
    have hc2 : ¬ ((i : ℤ) + 9 < 0) := by omega
    rw [if_pos hc1, if_neg hc2]
    omega
  · intro h8 hwrap hempty
    apply List.eq_nil_of_length_eq_zero
    rw [peakWindow, pySlice_length]
    simp only [pySliceIdx]
    have hc1 : (i : ℤ) - 8 < 0 := by omega
    have hc2 : ¬ ((i : ℤ) + 9 < 0) := by omega
    rw [if_pos hc1, if_neg hc2]
    omega
  · intro h8 hlt htrunc
    rw [peakWindow, pySlice_length]
    simp only [pySliceIdx]
    have hc1 : ¬ ((i : ℤ) - 8 < 0) := by omega
    have hc2 : ¬ ((i : ℤ) + 9 < 0) := by omega
    rw [if_neg hc1, if_neg hc2]
    omega

/-- Concrete instances of `refine_window_no_boundary_guard` on an array of
length 20: at coarse peak index 2 the wrapped window is empty, and at
index 15 it is truncated to 13 samples. -/
theorem refine_window_no_boundary_guard_witness :
    (peakWindow (List.replicate 20 (0 : ℚ)) 2).length < 17 ∧
    peakWindow (List.replicate 20 (0 : ℚ)) 2 = [] ∧
    (peakWindow (List.replicate 20 (0 : ℚ)) 15).length =
      (List.replicate 20 (0 : ℚ)).length + 8 - 15 :=
  ⟨(refine_window_no_boundary_guard (List.replicate 20 (0 : ℚ)) 2).1 (by norm_num),
   (refine_window_no_boundary_guard (List.replicate 20 (0 : ℚ)) 2).2.1
     (by norm_num) (by simp) (by simp),
   (refine_window_no_boundary_guard (List.replicate 20 (0 : ℚ)) 15).2.2
     (by norm_num) (by simp) (by simp)⟩

/-- The full convolution of an `M`-list and an `N`-list has `M + N - 1`
entries. -/
lemma convFull_length {α : Type _} [CommRing α] (a v : List α) :
    (convFull a v).length = a.length + v.length - 1 := by
  simp [convFull]

/-- The `same`-mode convolution of two non-empty lists has
`max M N` entries. -/
lemma convSame_length {α : Type _} [CommRing α] (a v : List α) (ha : a ≠ []) (hv : v ≠ []) :
    (convSame a v).length = max a.length v.length := by
  have ha' : 0 < a.length := List.length_pos.mpr ha
  have hv' : 0 < v.length := List.length_pos.mpr hv
  simp only [convSame, List.length_take, List.length_drop, convFull_length]
  omega

/-- The designed kernel has exactly `kernelLengthN b` taps. -/
lemma designLowpass_length (fc : ℝ) (b : ℚ) :
    (designLowpass fc b).length = kernelLengthN b := by
  simp [designLowpass, rawFilt]

/-- For a valid transition fraction the kernel is non-trivial. -/
lemma kernelLengthN_pos (b : ℚ) (h0 : 0 < b) (h2 : b < 1 / 2) : 0 < kernelLengthN b := by
  have h := kernelLength_odd_ge b h0 h2
  unfold kernelLengthN
  omega

/-- Claim C6 (amended): applying the band-limiting filter to a spectrum
with flux of length `L` returns flux of length `max L N` where `N` is the
kernel length — in particular of length `L` whenever `L ≥ N` — and
returns the wavelength and uncertainty of the input unchanged. -/
theorem band_limit_shape (s : Spectrum ℝ) (fc : ℝ) (b : ℚ) (hflux : s.flux ≠ [])
    (hb0 : 0 < b) (hb2 : b < 1 / 2) :
    (applyFilter s (designLowpass fc b)).flux.length
        = max s.flux.length (designLowpass fc b).length ∧
    ((designLowpass fc b).length ≤ s.flux.length →
      (applyFilter s (designLowpass fc b)).flux.length = s.flux.length) ∧
    (applyFilter s (designLowpass fc b)).wavelength = s.wavelength ∧
    (applyFilter s (designLowpass fc b)).uncertainty = s.uncertainty := by
  have hk : designLowpass fc b ≠ [] := by
    have h1 := designLowpass_length fc b
    have h2 := kernelLengthN_pos b hb0 hb2
    intro hnil
    rw [hnil] at h1
    simp only [List.length_nil] at h1
    omega
  have hlen := convSame_length s.flux (designLowpass fc b) hflux hk
  exact ⟨hlen, fun hle => hlen.trans (max_eq_left hle), rfl, rfl⟩

/-- Concrete instance of `band_limit_shape`: a 9-sample flux filtered
with the 9-tap kernel designed at `fc = 1/4`, `b = 0.49` keeps its
length and its wavelength/uncertainty. -/
theorem band_limit_shape_witness :
    (applyFilter (⟨List.replicate 9 (1 : ℝ), List.replicate 9 (0 : ℝ),
        List.replicate 9 (1 : ℝ)⟩ : Spectrum ℝ) (designLowpass (1 / 4) (49 / 100))).flux.length
      = max (List.replicate 9 (0 : ℝ)).length (designLowpass (1 / 4) (49 / 100)).length ∧
    ((designLowpass (1 / 4) (49 / 100)).length ≤ (List.replicate 9 (0 : ℝ)).length →
      (applyFilter (⟨List.replicate 9 (1 : ℝ), List.replicate 9 (0 : ℝ),
          List.replicate 9 (1 : ℝ)⟩ : Spectrum ℝ) (designLowpass (1 / 4) (49 / 100))).flux.length
        = (List.replicate 9 (0 : ℝ)).length) ∧
    (applyFilter (⟨List.replicate 9 (1 : ℝ), List.replicate 9 (0 : ℝ),
        List.replicate 9 (1 : ℝ)⟩ : Spectrum ℝ) (designLowpass (1 / 4) (49 / 100))).wavelength
      = List.replicate 9 (1 : ℝ) ∧
    (applyFilter (⟨List.replicate 9 (1 : ℝ), List.replicate 9 (0 : ℝ),
        List.replicate 9 (1 : ℝ)⟩ : Spectrum ℝ) (designLowpass (1 / 4) (49 / 100))).uncertainty
      = List.replicate 9 (1 : ℝ) :=
  band_limit_shape
    ⟨List.replicate 9 (1 : ℝ), List.replicate 9 (0 : ℝ), List.replicate 9 (1 : ℝ)⟩
    (1 / 4) (49 / 100) (by simp) (by norm_num) (by norm_num)

/-- At the operating point the kernel has 9 taps. -/
lemma kernelLengthN_at_op : kernelLengthN (49 / 100) = 9 := by
  unfold kernelLengthN
  rw [kernelLength_at_op]
  rfl

/-- Claim C6 counterexample: a spectrum whose flux holds a single sample,
filtered with the designed 9-tap kernel, comes back with 9 flux samples,
not 1 — `same`-mode convolution returns `max(L, N)` entries, so the
claimed length invariance fails when the flux is shorter than the
kernel. -/
theorem band_limit_length_counterexample :
    ((⟨[5000], [1], [1]⟩ : Spectrum ℝ)).flux.length = 1 ∧
    (applyFilter (⟨[5000], [1], [1]⟩ : Spectrum ℝ)
        (designLowpass (1 / 4) (49 / 100))).flux.length = 9 ∧
    (applyFilter (⟨[5000], [1], [1]⟩ : Spectrum ℝ)
        (designLowpass (1 / 4) (49 / 100))).flux.length ≠ 1 := by
  have hkl : (designLowpass (1 / 4) (49 / 100)).length = 9 := by
    rw [designLowpass_length, kernelLengthN_at_op]
  have hk : designLowpass (1 / 4) (49 / 100) ≠ [] := by
    intro hnil
    rw [hnil] at hkl
    simp at hkl
  have hlen := convSame_length ([1] : List ℝ) (designLowpass (1 / 4) (49 / 100)) (by simp) hk
  rw [hkl] at hlen
  norm_num at hlen
  exact ⟨rfl, hlen, by rw [show (applyFilter (⟨[5000], [1], [1]⟩ : Spectrum ℝ)
    (designLowpass (1 / 4) (49 / 100))).flux.length = 9 from hlen]; norm_num⟩

/-- The wavelength grid is strictly ascending when the dispersion step is
positive. -/
lemma waveGrid_pairwise (L : ℕ) (cd crval : ℚ) (hcd : 0 < cd) :
    (waveGrid L cd crval).Pairwise (· < ·) := by
  unfold waveGrid
  refine List.Pairwise.map _ ?_ (List.pairwise_lt_range L)
  intro i j hij
  have hq : (i : ℚ) < (j : ℚ) := by exact_mod_cast hij
  nlinarith

/-- The wavelength grid has `L` samples. -/
lemma waveGrid_length (L : ℕ) (cd crval : ℚ) : (waveGrid L cd crval).length = L := by
  rw [waveGrid, List.length_map, List.length_range]

/-- The wavelengths of the filtered table form a sublist of the raw grid. -/
lemma dataspecSub_wavelength_sublist (wave flux wht unc : List ℚ)
    (hlen : wave.length ≤ (flux.zip (wht.zip unc)).length) :
    List.Sublist ((dataspecSub wave flux wht unc).map fun r => r.1) wave := by
  have hsub : List.Sublist (dataspecSub wave flux wht unc) (dataspecRows wave flux wht unc) :=
    List.filter_sublist _
  have hmap := hsub.map fun r => r.1
  rw [show ((dataspecRows wave flux wht unc).map fun r => r.1) = wave from
    List.map_fst_zip wave _ hlen] at hmap
  exact hmap

/-- Claim C7: the observed spectrum constructed from the raw arrays
satisfies the data-model invariant — equal lengths of wavelength, flux
and uncertainty, strictly ascending (hence duplicate-free) wavelengths
— with every zero/negative-weight sample filtered out before
construction; and the processing stages (continuum subtraction,
band-limiting filtering on a flux at least as long as the kernel)
preserve the invariant while passing wavelength and uncertainty through
unchanged. -/
theorem spectrum_invariant (L : ℕ) (cd crval : ℚ) (flux wht unc : List ℚ)
    (hcd : 0 < cd) (hf : flux.length = L) (hw : wht.length = L) (hu : unc.length = L) :
    SpectrumWF (mkObs (waveGrid L cd crval) flux wht unc) ∧
    (∀ r ∈ dataspecSub (waveGrid L cd crval) flux wht unc, 0 < rowWeight r) ∧
    (∀ (s : Spectrum ℚ) (cont : ℚ → ℚ), SpectrumWF s →
      SpectrumWF (subtractContinuum s cont) ∧
      (subtractContinuum s cont).wavelength = s.wavelength ∧
      (subtractContinuum s cont).uncertainty = s.uncertainty) ∧
    (∀ (s : Spectrum ℚ) (k : List ℚ), SpectrumWF s → s.flux ≠ [] → k ≠ [] →
      k.length ≤ s.flux.length →
      SpectrumWF (applyFilter s k) ∧
      (applyFilter s k).wavelength = s.wavelength ∧
      (applyFilter s k).uncertainty = s.uncertainty) := by
  refine ⟨⟨by simp [mkObs], by simp [mkObs], ?_⟩, ?_, ?_, ?_⟩
  · have hlen : (waveGrid L cd crval).length ≤ (flux.zip (wht.zip unc)).length := by
      simp [waveGrid_length, List.length_zip, hf, hw, hu]
    exact List.Pairwise.sublist (dataspecSub_wavelength_sublist _ flux wht unc hlen)
      (waveGrid_pairwise L cd crval hcd)
  · intro r hr
    have := (List.mem_filter.mp hr).2
    exact of_decide_eq_true this
  · intro s cont hs
    obtain ⟨hwl, hul, hsort⟩ := hs
    refine ⟨⟨?_, hul.trans ?_, hsort⟩, rfl, rfl⟩
    · simp [subtractContinuum, List.length_zipWith, hwl]
    · simp [subtractContinuum, List.length_zipWith, hwl]
  · intro s k hs hflux hk hkle
    obtain ⟨hwl, hul, hsort⟩ := hs
    have hlen := convSame_length s.flux k hflux hk
    have hmax : max s.flux.length k.length = s.flux.length := max_eq_left hkle
    refine ⟨⟨?_, ?_, hsort⟩, rfl, rfl⟩
    · show s.wavelength.length = (convSame s.flux k).length
      rw [hlen, hmax, hwl]
    · show s.uncertainty.length = (convSame s.flux k).length
      rw [hlen, hmax, hul]

/-- Concrete instance of `spectrum_invariant` with a three-sample table,
one sample of which has zero weight. -/
theorem spectrum_invariant_witness :
    SpectrumWF (mkObs (waveGrid 3 1 0) [1, 2, 3] [1, 0, 2] [4, 5, 6]) ∧
    (∀ r ∈ dataspecSub (waveGrid 3 1 0) [1, 2, 3] [1, 0, 2] [4, 5, 6], 0 < rowWeight r) ∧
    (∀ (s : Spectrum ℚ) (cont : ℚ → ℚ), SpectrumWF s →
      SpectrumWF (subtractContinuum s cont) ∧
      (subtractContinuum s cont).wavelength = s.wavelength ∧
      (subtractContinuum s cont).uncertainty = s.uncertainty) ∧
    (∀ (s : Spectrum ℚ) (k : List ℚ), SpectrumWF s → s.flux ≠ [] → k ≠ [] →
      k.length ≤ s.flux.length →
      SpectrumWF (applyFilter s k) ∧
      (applyFilter s k).wavelength = s.wavelength ∧
      (applyFilter s k).uncertainty = s.uncertainty) :=
  spectrum_invariant 3 1 0 [1, 2, 3] [1, 0, 2] [4, 5, 6] (by norm_num) rfl rfl rfl

/-- The mean of the two roots returned by `np.roots` on a real quadratic
with non-zero leading coefficient is the vertex `-b/(2a)`: the square
root of the discriminant (real or imaginary) cancels in the sum. -/
lemma meanRoots_eq (a b c : ℝ) (ha : a ≠ 0) :
    meanRoots a b c = ((-b / (2 * a) : ℝ) : ℂ) := by
  have haC : (a : ℂ) ≠ 0 := by exact_mod_cast ha
  unfold meanRoots quadRoots
  push_cast
  field_simp
  ring

/-- The least-squares quadratic fit over the 17-sample integer-lag window
recovers a quadratic exactly when the data are exactly that quadratic. -/
lemma polyfit2_windowLags_exact (A B C : ℝ) :
    polyfit2 windowLags (windowLags.map fun x => A * x ^ 2 + B * x + C) = (A, B, C) := by
  simp only [polyfit2, powSum, mixSum, det3, windowLags, List.map_cons, List.map_nil,
    List.zip_cons_cons, List.zip_nil_right, List.sum_cons, List.sum_nil, Prod.mk.injEq]
  refine ⟨?_, ?_, ?_⟩ <;> (rw [div_eq_iff (by norm_num)]; ring)

/-- Claim C1: for every quadratic `p(x) = a x² + b x + c` with `a ≠ 0`,
the refined peak velocity computed as the mean of the two roots of `p`
equals the parabola vertex `-b/(2a)`; in particular, when the
correlation values in the window are exactly a known quadratic sampled
at the window lags, `refineVfit` returns `-b/(2a)` exactly. -/
theorem refine_peak_vertex :
    (∀ a b c : ℝ, a ≠ 0 → meanRoots a b c = ((-b / (2 * a) : ℝ) : ℂ)) ∧
    (∀ A B C : ℝ, A ≠ 0 →
      refineVfit windowLags (windowLags.map fun x => A * x ^ 2 + B * x + C)
        = ((-B / (2 * A) : ℝ) : ℂ)) := by
  refine ⟨meanRoots_eq, ?_⟩
  intro A B C hA
  rw [refineVfit, polyfit2_windowLags_exact]
  exact meanRoots_eq A B C hA

/-- Concrete instances of `refine_peak_vertex`: the quadratic
`x² + 2x + 3` (complex roots) has root mean `-1`, and refining data
sampled from `-x² + 1` over the window returns its vertex 0. -/
theorem refine_peak_vertex_witness :
    meanRoots 1 2 3 = ((-2 / (2 * 1) : ℝ) : ℂ) ∧
    refineVfit windowLags (windowLags.map fun x => (-1) * x ^ 2 + 0 * x + 1)
      = ((-0 / (2 * (-1)) : ℝ) : ℂ) :=
  ⟨refine_peak_vertex.1 1 2 3 (by norm_num),
   refine_peak_vertex.2 (-1) 0 1 (by norm_num)⟩

/-- Claim C3 counterexample: on window data sampled from `x²` the fitted
parabola opens upward (leading coefficient 1 > 0), yet the refinement
code returns the velocity 0 instead of signalling any
`DegenerateFitError` — the notebook computes `np.mean(np.roots(p))`
unconditionally, with no degeneracy check on any code path. -/
theorem degenerate_fit_no_error_counterexample :
    (polyfit2 windowLags (windowLags.map fun x => 1 * x ^ 2 + 0 * x + 0)).1 = 1 ∧
    (0 : ℝ) < (polyfit2 windowLags (windowLags.map fun x => 1 * x ^ 2 + 0 * x + 0)).1 ∧
    refineVfit windowLags (windowLags.map fun x => 1 * x ^ 2 + 0 * x + 0) = ((0 : ℝ) : ℂ) := by
  have h1 : (polyfit2 windowLags (windowLags.map fun x => 1 * x ^ 2 + 0 * x + 0)).1 = 1 := by
    rw [polyfit2_windowLags_exact]
  refine ⟨h1, by rw [h1]; norm_num, ?_⟩
  rw [refineVfit, polyfit2_windowLags_exact]
  have h := meanRoots_eq 1 0 0 (by norm_num)
  simpa using h

/-- Claim C3 (amended): when the fitted parabola opens upward or has a
negative discriminant (complex roots), peak refinement signals no error
and still returns the midpoint of the roots, i.e. the vertex
`-b/(2a)`. -/
theorem degenerate_fit_returns_vertex (a b c : ℝ)
    (h : 0 < a ∨ b ^ 2 - 4 * a * c < 0) :
    meanRoots a b c = ((-b / (2 * a) : ℝ) : ℂ) := by
  have ha : a ≠ 0 := by
    rcases h with h | h
    · exact ne_of_gt h
    · intro h0
      rw [h0] at h
      nlinarith [sq_nonneg b]
  exact meanRoots_eq a b c ha

/-- Concrete instance of `degenerate_fit_returns_vertex` at the upward
parabola `x² + 1` (which also has complex roots): the returned velocity
is its vertex 0. -/
theorem degenerate_fit_returns_vertex_witness :
    ((0 : ℝ) < 1 ∨ (0 : ℝ) ^ 2 - 4 * 1 * 1 < 0) ∧
    meanRoots 1 0 1 = ((-0 / (2 * 1) : ℝ) : ℂ) :=
  ⟨Or.inl (by norm_num), degenerate_fit_returns_vertex 1 0 1 (Or.inl (by norm_num))⟩

/-- Dividing every element and summing is summing and dividing. -/
lemma sum_map_div (l : List ℝ) (c : ℝ) : (l.map fun t => t / c).sum = l.sum / c := by
  induction l with
  | nil => simp
  | cons x xs ih => simp [ih, add_div]

/-- Claim C2: for every cutoff fraction and transition fraction in the
open interval `(0, 1/2)`, the designed windowed-sinc kernel — sinc taps
times Blackman window, then normalized — has taps summing to exactly 1,
provided the normalizing sum of un-normalized taps is non-zero (in exact
real arithmetic the normalization makes the sum exactly 1, hence within
any floating-point tolerance). -/
theorem lowpass_unity_gain (fc : ℝ) (b : ℚ) (hfc0 : 0 < fc) (hfc2 : fc < 1 / 2)
    (hb0 : 0 < b) (hb2 : b < 1 / 2)
    (hS : (rawFilt fc (kernelLengthN b)).sum ≠ 0) :
    (designLowpass fc b).sum = 1 := by
  rw [designLowpass, sum_map_div]
  exact div_self hS

/-- `np.sinc 0 = 1`. -/
lemma sinc_zero : sinc 0 = 1 := by
  rw [sinc, if_pos rfl]

/-- `np.sinc (-2) = 0`. -/
lemma sinc_neg_two : sinc (-2) = 0 := by
  rw [sinc, if_neg (by norm_num)]
  rw [show Real.pi * -2 = -(2 * Real.pi) by ring, Real.sin_neg, Real.sin_two_pi,
    neg_zero, zero_div]

/-- `np.sinc 2 = 0`. -/
lemma sinc_two : sinc 2 = 0 := by
  rw [sinc, if_neg (by norm_num)]
  rw [show Real.pi * 2 = 2 * Real.pi by ring, Real.sin_two_pi, zero_div]

/-- `np.sinc (-1) = 0`. -/
lemma sinc_neg_one : sinc (-1) = 0 := by
  rw [sinc, if_neg (by norm_num)]
  rw [show Real.pi * -1 = -Real.pi by ring, Real.sin_neg, Real.sin_pi, neg_zero, zero_div]

/-- `np.sinc 1 = 0`. -/
lemma sinc_one : sinc 1 = 0 := by
  rw [sinc, if_neg (by norm_num)]
  rw [mul_one, Real.sin_pi, zero_div]

/-- `np.sinc (-1/2) = 2/π`. -/
lemma sinc_neg_half : sinc (-(1 / 2)) = 2 / Real.pi := by
  rw [sinc, if_neg (by norm_num)]
  rw [show Real.pi * -(1 / 2) = -(Real.pi / 2) by ring, Real.sin_neg, Real.sin_pi_div_two]
  rw [neg_div_neg_eq, one_div_div]

/-- `np.sinc (1/2) = 2/π`. -/
lemma sinc_half : sinc (1 / 2) = 2 / Real.pi := by
  rw [sinc, if_neg (by norm_num)]
  rw [show Real.pi * (1 / 2) = Real.pi / 2 by ring, Real.sin_pi_div_two, one_div_div]

/-- `sin (3π/2) = -1`. -/
lemma sin_three_pi_div_two : Real.sin (Real.pi + Real.pi / 2) = -1 := by
  rw [Real.sin_add, Real.sin_pi, Real.cos_pi, Real.sin_pi_div_two, Real.cos_pi_div_two]
  ring

/-- `np.sinc (-3/2) = -2/(3π)`. -/
lemma sinc_neg_three_half : sinc (-(3 / 2)) = -(2 / (3 * Real.pi)) := by
  rw [sinc, if_neg (by norm_num)]
  rw [show Real.pi * -(3 / 2) = -(Real.pi + Real.pi / 2) by ring, Real.sin_neg,
    sin_three_pi_div_two]
  rw [neg_neg]
  rw [show -(Real.pi + Real.pi / 2) = 3 * Real.pi / -2 by ring, one_div_div, neg_div]

/-- `np.sinc (3/2) = -2/(3π)`. -/
lemma sinc_three_half : sinc (3 / 2) = -(2 / (3 * Real.pi)) := by
  rw [sinc, if_neg (by norm_num)]
  rw [show Real.pi * (3 / 2) = Real.pi + Real.pi / 2 by ring, sin_three_pi_div_two]
  have hpi := Real.pi_ne_zero
  field_simp
  ring

/-- Blackman tap 1 of a 9-tap window. -/
lemma blackman_9_1 : blackman 9 1 = 0.42 - Real.sqrt 2 / 4 := by
  rw [blackman]
  rw [show 2 * Real.pi * ((1 : ℕ) : ℝ) / (((9 : ℕ) : ℝ) - 1) = Real.pi / 4 by push_cast; ring]
  rw [show 4 * Real.pi * ((1 : ℕ) : ℝ) / (((9 : ℕ) : ℝ) - 1) = Real.pi / 2 by push_cast; ring]
  rw [Real.cos_pi_div_four, Real.cos_pi_div_two]
  ring

/-- Blackman tap 3 of a 9-tap window. -/
lemma blackman_9_3 : blackman 9 3 = 0.42 + Real.sqrt 2 / 4 := by
  rw [blackman]
  rw [show 2 * Real.pi * ((3 : ℕ) : ℝ) / (((9 : ℕ) : ℝ) - 1)
      = Real.pi - Real.pi / 4 by push_cast; ring]
  rw [show 4 * Real.pi * ((3 : ℕ) : ℝ) / (((9 : ℕ) : ℝ) - 1)
      = Real.pi + Real.pi / 2 by push_cast; ring]
  rw [Real.cos_pi_sub, Real.cos_pi_div_four, Real.cos_add, Real.cos_pi, Real.sin_pi,
    Real.cos_pi_div_two, Real.sin_pi_div_two]
  ring

/-- The central Blackman tap of a 9-tap window is 1. -/
lemma blackman_9_4 : blackman 9 4 = 1 := by
  rw [blackman]
  rw [show 2 * Real.pi * ((4 : ℕ) : ℝ) / (((9 : ℕ) : ℝ) - 1) = Real.pi by push_cast; ring]
  rw [show 4 * Real.pi * ((4 : ℕ) : ℝ) / (((9 : ℕ) : ℝ) - 1)
      = 2 * Real.pi by push_cast; ring]
  rw [Real.cos_pi, Real.cos_two_pi]
  norm_num

/-- Blackman tap 5 of a 9-tap window. -/
lemma blackman_9_5 : blackman 9 5 = 0.42 + Real.sqrt 2 / 4 := by
  rw [blackman]
  rw [show 2 * Real.pi * ((5 : ℕ) : ℝ) / (((9 : ℕ) : ℝ) - 1)
      = Real.pi + Real.pi / 4 by push_cast; ring]
  rw [show 4 * Real.pi * ((5 : ℕ) : ℝ) / (((9 : ℕ) : ℝ) - 1)
      = 2 * Real.pi + Real.pi / 2 by push_cast; ring]
  rw [Real.cos_add, Real.cos_add, Real.cos_pi, Real.sin_pi, Real.cos_pi_div_four,
    Real.cos_two_pi, Real.sin_two_pi, Real.cos_pi_div_two, Real.sin_pi_div_two]
  ring

/-- Blackman tap 7 of a 9-tap window. -/
lemma blackman_9_7 : blackman 9 7 = 0.42 - Real.sqrt 2 / 4 := by
  rw [blackman]
  rw [show 2 * Real.pi * ((7 : ℕ) : ℝ) / (((9 : ℕ) : ℝ) - 1)
      = 2 * Real.pi - Real.pi / 4 by push_cast; ring]
  rw [show 4 * Real.pi * ((7 : ℕ) : ℝ) / (((9 : ℕ) : ℝ) - 1)
      = 2 * Real.pi + (Real.pi + Real.pi / 2) by push_cast; ring]
  rw [Real.cos_two_pi_sub, Real.cos_pi_div_four, Real.cos_add, Real.cos_add,
    Real.cos_two_pi, Real.sin_two_pi, Real.cos_pi, Real.sin_pi,
    Real.cos_pi_div_two, Real.sin_pi_div_two]
  ring

/-- Closed form of the un-normalized 9-tap sum at `fc = 1/4`. -/
lemma rawFilt_quarter_sum :
    (rawFilt (1 / 4) 9).sum =
      1 + 2 * (2 / Real.pi) * (0.42 + Real.sqrt 2 / 4)
        - 2 * (2 / (3 * Real.pi)) * (0.42 - Real.sqrt 2 / 4) := by
  have hr : List.range 9 = [0, 1, 2, 3, 4, 5, 6, 7, 8] := rfl
  rw [rawFilt, hr]
  simp only [List.map_cons, List.map_nil, List.sum_cons, List.sum_nil]
  norm_num
  rw [sinc_neg_two, sinc_neg_three_half, sinc_neg_one, sinc_neg_half, sinc_zero,
    sinc_half, sinc_one, sinc_three_half, sinc_two,
    blackman_9_1, blackman_9_3, blackman_9_4, blackman_9_5, blackman_9_7]
  ring

/-- The un-normalized tap sum at the witness operating point is
non-zero. -/
lemma rawFilt_quarter_sum_ne : (rawFilt (1 / 4) 9).sum ≠ 0 := by
  have key : (rawFilt (1 / 4) 9).sum * (3 * Real.pi)
      = 3 * Real.pi + 12 * (0.42 + Real.sqrt 2 / 4) - 4 * (0.42 - Real.sqrt 2 / 4) := by
    rw [rawFilt_quarter_sum]
    have hpi := Real.pi_ne_zero
    field_simp
    ring
  have hrhs : (0 : ℝ) <
      3 * Real.pi + 12 * (0.42 + Real.sqrt 2 / 4) - 4 * (0.42 - Real.sqrt 2 / 4) := by
    nlinarith [Real.pi_pos, Real.sqrt_nonneg 2]
  intro h0
  rw [h0, zero_mul] at key
  linarith [key ▸ hrhs]

/-- Concrete instance of `lowpass_unity_gain` at `fc = 1/4`, `b = 0.49`:
the 9-tap kernel sums to exactly 1 (the un-normalized tap sum is
provably non-zero there). -/
theorem lowpass_unity_gain_witness :
    (0 : ℝ) < 1 / 4 ∧ (1 / 4 : ℝ) < 1 / 2 ∧ (0 : ℚ) < 49 / 100 ∧ (49 / 100 : ℚ) < 1 / 2 ∧
    (rawFilt (1 / 4) (kernelLengthN (49 / 100))).sum ≠ 0 ∧
    (designLowpass (1 / 4) (49 / 100)).sum = 1 := by
  have hS : (rawFilt (1 / 4) (kernelLengthN (49 / 100))).sum ≠ 0 := by
    rw [kernelLengthN_at_op]
    exact rawFilt_quarter_sum_ne
  exact ⟨by norm_num, by norm_num, by norm_num, by norm_num, hS,
    lowpass_unity_gain (1 / 4) (49 / 100) (by norm_num) (by norm_num) (by norm_num)
      (by norm_num) hS⟩

end RedshiftXCorr
